import Mathlib

set_option maxRecDepth 4000

/-!
Verification of the Pijama language pipeline.

The definitions below embed the surface AST, the MIR term language and the
MIR lowering pass of the Pijama repository (`src/mir/lower.rs` and
`pijama_ty/src/lib.rs`).  Components of the pipeline whose sources are not
part of the verified tree (the recursion checker, the LIR language, the
type-checker and the evaluation machine) are modelled from the written
specification and are marked as such in their doc comments.
-/

/-- A span `(start, end)` into the original source. -/
structure Location where
  start : Nat
  endPos : Nat
deriving DecidableEq, Repr

/-- A syntactic element together with its source location. -/
structure Located (α : Type) where
  content : α
  loc : Location
deriving DecidableEq, Repr

/-- Names are borrowed string slices in the source; modelled as strings. -/
abbrev Name := String

/-- Surface literals. -/
inductive Literal where
  | bool (b : Bool)
  | int (i : Int)
  | unit
deriving DecidableEq, Repr

/-- Binary operators of the surface language. -/
inductive BinOp where
  | Add | Sub | Mul | Div | Rem
  | BitAnd | BitOr | BitXor | Shl | Shr
  | And | Or
  | Eq | Neq | Lt | Gt | Lte | Gte
deriving DecidableEq, Repr

/-- Unary operators of the surface language. -/
inductive UnOp where
  | Neg
  | Not
deriving DecidableEq, Repr

/-- Built-in primitives; currently only `print`. -/
inductive Prim where
  | print
deriving DecidableEq, Repr

/-- The internal type representation used by the type-checker
(`pijama_ty/src/lib.rs`). -/
inductive Ty where
  | bool
  | int
  | unit
  | arrow (t1 t2 : Ty)
  | var (index : Nat)
deriving DecidableEq, Repr

/-- Surface type annotations; `missing` denotes an omitted type. -/
inductive TyAST where
  | missing
  | bool
  | int
  | unit
  | arrow (t1 t2 : TyAST)
deriving DecidableEq, Repr

/-- A function parameter: a name together with its declared type. -/
structure Binding where
  name : Name
  ty : Ty
deriving DecidableEq, Repr

/-- Kind tag of a let binding: non-recursive with an optional annotation, or
recursive with a required annotation. -/
inductive LetKind where
  | NonRec (ty : Option (Located Ty))
  | Rec (ty : Located Ty)
deriving DecidableEq, Repr

/-- A conditional branch: a condition block and a body block, both located.
The parameter is instantiated with `Node` below. -/
structure BranchG (α : Type) where
  cond : Located (List (Located α))
  body : Located (List (Located α))
deriving DecidableEq, Repr

/-- Surface syntax nodes.  Blocks are lists of located nodes. -/
inductive Node where
  | name (n : Name)
  | literal (l : Literal)
  | binaryOp (op : BinOp) (n1 n2 : Located Node)
  | unaryOp (op : UnOp) (n1 : Located Node)
  | cond (ifBranch : BranchG Node) (branches : List (BranchG Node))
      (elseBlk : Located (List (Located Node)))
  | call (callee : Located Node) (args : List (Located Node))
  | letBind (nm : Located Name) (annot : Option (Located Ty)) (rhs : Located Node)
  | fnDef (optName : Option (Located Name)) (binds : List (Located Binding))
      (body : Located (List (Located Node))) (optTy : Option (Located Ty))
  | primFn (p : Prim)

/-- An ordered sequence of located nodes. -/
abbrev Block := List (Located Node)

/-- A conditional branch over surface nodes. -/
abbrev Branch := BranchG Node

/-- MIR: the named intermediate term language. -/
inductive Term where
  | lit (l : Literal)
  | var (n : Name)
  | primFn (p : Prim)
  | binaryOp (op : BinOp) (t1 t2 : Located Term)
  | unaryOp (op : UnOp) (t1 : Located Term)
  | cond (c tb eb : Located Term)
  | app (f a : Located Term)
  | abs (b : Binding) (body : Located Term)
  | letE (k : LetKind) (nm : Located Name) (v bd : Located Term)
  | seq (t1 t2 : Located Term)

/-- Errors raised by the MIR lowering pass. -/
inductive LowerError where
  | RecWithoutTy (loc : Location)
  | AnonWithTy (loc : Location)
deriving Repr

/-- Result type of the MIR lowering pass. -/
abbrev LowerResult (α : Type) := Except LowerError α

/-- The discriminant of a lowering error: which variant it is, disregarding
the payload.  Mirrors `std::mem::discriminant` as used in
`impl PartialEq for LowerError`. -/
def LowerError.discriminant : LowerError → Nat
  | .RecWithoutTy _ => 0
  | .AnonWithTy _ => 1

/-- Equality on lowering errors as implemented by `PartialEq for LowerError`:
two errors are equal when their discriminants coincide. -/
def LowerError.eq (e1 e2 : LowerError) : Bool :=
  e1.discriminant == e2.discriminant

/-- Checks if the index of a `Ty.Var` is contained inside the type
(`Ty::contains` in `pijama_ty/src/lib.rs`). -/
def Ty.contains : Ty → Nat → Bool
  | .bool, _ | .int, _ | .unit, _ => false
  | .arrow t1 t2, index => t1.contains index || t2.contains index
  | .var inner, index => inner == index

/-- Conversion from a surface annotation to an internal type
(`Ty::from_ast` in `pijama_ty/src/lib.rs`). -/
def Ty.from_ast : TyAST → Option Ty
  | .missing => none
  | .bool => some .bool
  | .int => some .int
  | .unit => some .unit
  | .arrow t1 t2 =>
    match Ty.from_ast t1 with
    | none => none
    | some s1 =>
      match Ty.from_ast t2 with
      | none => none
      | some s2 => some (.arrow s1 s2)

/-- The size of an appended list, used for termination measures. -/
theorem sizeOf_list_append {α : Type} [SizeOf α] (l1 l2 : List α) :
    sizeOf (l1 ++ l2) + 1 = sizeOf l1 + sizeOf l2 := by
  induction l1 with
  | nil => simp; omega
  | cons a l ih => simp at ih ⊢; omega

/-- Reversing a list preserves its size, used for termination measures. -/
theorem sizeOf_list_reverse {α : Type} [SizeOf α] (l : List α) :
    sizeOf l.reverse = sizeOf l := by
  induction l with
  | nil => rfl
  | cons a l ih =>
    have h := sizeOf_list_append l.reverse [a]
    simp at h ⊢
    omega

/-- Does a node introduce a binding for `n` that is visible in the rest of
its block?  `let` bindings and named function definitions do. -/
def shadowsName (n : Name) : Node → Bool
  | .letBind nm _ _ => nm.content == n
  | .fnDef (some nm) _ _ _ => nm.content == n
  | _ => false

mutual

/-- Modelled from the spec: the `RecursionChecker` analysis
(`ast::analysis::RecursionChecker`, not part of the verified tree).  A block
mentions `n` freely when some statement mentions it freely, where a
statement that rebinds `n` shadows it for the remainder of the block. -/
def freeInBlock (n : Name) : List (Located Node) → Bool
  | [] => false
  | s :: rest =>
    freeInNode n s.content || (!shadowsName n s.content && freeInBlock n rest)

/-- Modelled from the spec: free occurrence of a name inside a node.
Parameters, `let` binders and named nested functions that rebind the name
hide occurrences within their scope. -/
def freeInNode (n : Name) : Node → Bool
  | .name m => m == n
  | .literal _ => false
  | .primFn _ => false
  | .binaryOp _ a b => freeInNode n a.content || freeInNode n b.content
  | .unaryOp _ a => freeInNode n a.content
  | .cond ifb brs el =>
    freeInBranch n ifb || freeInBranches n brs || freeInBlock n el.content
  | .call f args => freeInNode n f.content || freeInArgs n args
  | .letBind _ _ rhs => freeInNode n rhs.content
  | .fnDef optName binds body _ =>
    if optName.any (fun nm => nm.content == n)
        || binds.any (fun b => b.content.name == n) then
      false
    else
      freeInBlock n body.content

/-- Modelled from the spec: free occurrence of a name inside one branch. -/
def freeInBranch (n : Name) (b : Branch) : Bool :=
  freeInBlock n b.cond.content || freeInBlock n b.body.content

/-- Modelled from the spec: free occurrence inside a list of branches. -/
def freeInBranches (n : Name) : List Branch → Bool
  | [] => false
  | b :: bs => freeInBranch n b || freeInBranches n bs

/-- Modelled from the spec: free occurrence inside a list of call
arguments. -/
def freeInArgs (n : Name) : List (Located Node) → Bool
  | [] => false
  | a :: rest => freeInNode n a.content || freeInArgs n rest

end

/-- Modelled from the spec: the entry point of the recursion analysis.  A
body is recursive with respect to `n` exactly when `n` occurs free in it. -/
def RecursionChecker.run (n : Name) (body : Block) : Bool :=
  freeInBlock n body

/-- The condition block of a branch is smaller than the branch. -/
theorem branchG_cond_lt {α : Type} [SizeOf α] (b : BranchG α) :
    sizeOf b.cond < sizeOf b := by
  cases b; simp; try omega

/-- The body block of a branch is smaller than the branch. -/
theorem branchG_body_lt {α : Type} [SizeOf α] (b : BranchG α) :
    sizeOf b.body < sizeOf b := by
  cases b; simp; try omega

/-- Combination step used when folding a block right-to-left: a `Let`
statement captures the rest of the block as its body, any other statement
is sequenced before it (`lower_blk` in `src/mir/lower.rs`). -/
def blkStep (prev next : Located Term) : Located Term :=
  match prev.content with
  | .letE k nm v _ => ⟨.letE k nm v next, prev.loc⟩
  | _ => ⟨.seq prev next, prev.loc⟩

/-- Right-to-left fold of the return type annotation through the binding
types, mirroring the `for bind in binds.iter().rev()` loop of
`lower_fn_def`.  The argument list is the reversed binding list. -/
def tyRevFold (t : Ty) : List (Located Binding) → Ty
  | [] => t
  | b :: bs => tyRevFold (.arrow b.content.ty t) bs

/-- Right-to-left fold wrapping the body in one `Abs` per binding, mirroring
the `for bind in binds.into_iter().rev()` loop of `lower_fn_def`.  The
argument list is the reversed binding list. -/
def absRevFold (loc : Location) (t : Located Term) : List (Located Binding) → Located Term
  | [] => t
  | b :: bs => absRevFold loc ⟨.abs b.content t, loc⟩ bs

mutual

/-- Lower a located node to a located MIR term (`lower_node` in
`src/mir/lower.rs`). -/
def lower_node : Located Node → LowerResult (Located Term)
  | ⟨.name n, loc⟩ => .ok ⟨.var n, loc⟩
  | ⟨.cond ifb brs el, loc⟩ => lower_cond loc ifb brs el
  | ⟨.literal l, loc⟩ => .ok ⟨.lit l, loc⟩
  | ⟨.call f args, loc⟩ => lower_call loc f args
  | ⟨.binaryOp op n1 n2, loc⟩ => lower_binary_op loc op n1 n2
  | ⟨.unaryOp op n1, loc⟩ => lower_unary_op loc op n1
  | ⟨.letBind nm annot rhs, loc⟩ => lower_let_bind loc nm annot rhs
  | ⟨.fnDef optName binds body optTy, loc⟩ => lower_fn_def loc optName binds body optTy
  | ⟨.primFn p, loc⟩ => .ok ⟨.primFn p, loc⟩
termination_by x => sizeOf x

/-- Lower a located block (`lower_blk` in `src/mir/lower.rs`).  The block is
traversed right-to-left, which is realised by reversing the statement
list. -/
def lower_blk : Located Block → LowerResult (Located Term)
  | ⟨nodes, loc⟩ => lower_blk_rev loc nodes.reverse
termination_by x => sizeOf x
decreasing_by
  simp_wf
  rw [sizeOf_list_reverse]
  omega

/-- Lowering of a reversed block: an empty block becomes a unit literal at
the block's location, otherwise the (originally trailing) statement is
lowered first and the remaining statements are folded over it. -/
def lower_blk_rev (loc : Location) : List (Located Node) → LowerResult (Located Term)
  | [] => .ok ⟨.lit .unit, loc⟩
  | n :: ns =>
    match lower_node n with
    | .error e => .error e
    | .ok t => lower_fold t ns
termination_by ns => sizeOf ns

/-- Fold over the earlier statements of a block (in reverse order),
combining each lowered statement with the lowering of the rest via
`blkStep`. -/
def lower_fold (t : Located Term) : List (Located Node) → LowerResult (Located Term)
  | [] => .ok t
  | n :: ns =>
    match lower_node n with
    | .error e => .error e
    | .ok p => lower_fold (blkStep p t) ns
termination_by ns => sizeOf ns

/-- Lower a conditional (`lower_cond` in `src/mir/lower.rs`): the else
block is lowered first, the `else if` branches are folded right-to-left
into nested conditionals, and finally the `if` branch is attached. -/
def lower_cond (loc : Location) (ifb : Branch) (brs : List Branch)
    (el : Located Block) : LowerResult (Located Term) :=
  match lower_blk el with
  | .error e => .error e
  | .ok elT =>
    match lower_branches loc elT brs.reverse with
    | .error e => .error e
    | .ok elT2 =>
      match lower_blk ifb.cond with
      | .error e => .error e
      | .ok c =>
        match lower_blk ifb.body with
        | .error e => .error e
        | .ok b => .ok ⟨.cond c b elT2, loc⟩
termination_by sizeOf ifb + sizeOf brs + sizeOf el + 1
decreasing_by
  all_goals simp_wf
  all_goals try rw [sizeOf_list_reverse]
  all_goals have h1 := branchG_cond_lt ifb
  all_goals have h2 := branchG_body_lt ifb
  all_goals omega

/-- Fold the `else if` branches (already reversed) into nested
conditionals around the current alternative. -/
def lower_branches (loc : Location) (el : Located Term) :
    List Branch → LowerResult (Located Term)
  | [] => .ok el
  | b :: bs =>
    match lower_blk b.cond with
    | .error e => .error e
    | .ok c =>
      match lower_blk b.body with
      | .error e => .error e
      | .ok bd => lower_branches loc ⟨.cond c bd el, loc⟩ bs
termination_by bs => sizeOf bs
decreasing_by
  all_goals simp_wf
  all_goals have h1 := branchG_cond_lt b
  all_goals have h2 := branchG_body_lt b
  all_goals omega

/-- Lower a call node (`lower_call` in `src/mir/lower.rs`): the callee is
lowered and the arguments are applied one by one, left to right. -/
def lower_call (loc : Location) (f : Located Node) (args : List (Located Node)) :
    LowerResult (Located Term) :=
  match lower_node f with
  | .error e => .error e
  | .ok t => lower_callFold loc t args
termination_by sizeOf f + sizeOf args + 1

/-- The argument loop of `lower_call`: each argument is lowered and wrapped
in an application carrying the call's location. -/
def lower_callFold (loc : Location) (t : Located Term) :
    List (Located Node) → LowerResult (Located Term)
  | [] => .ok t
  | a :: rest =>
    match lower_node a with
    | .error e => .error e
    | .ok a2 => lower_callFold loc ⟨.app t a2, loc⟩ rest
termination_by args => sizeOf args

/-- Lower a binary operation (`lower_binary_op` in `src/mir/lower.rs`). -/
def lower_binary_op (loc : Location) (op : BinOp) (n1 n2 : Located Node) :
    LowerResult (Located Term) :=
  match lower_node n1 with
  | .error e => .error e
  | .ok t1 =>
    match lower_node n2 with
    | .error e => .error e
    | .ok t2 => .ok ⟨.binaryOp op t1 t2, loc⟩
termination_by sizeOf n1 + sizeOf n2 + 1

/-- Lower a unary operation (`lower_unary_op` in `src/mir/lower.rs`). -/
def lower_unary_op (loc : Location) (op : UnOp) (n1 : Located Node) :
    LowerResult (Located Term) :=
  match lower_node n1 with
  | .error e => .error e
  | .ok t1 => .ok ⟨.unaryOp op t1, loc⟩
termination_by sizeOf n1 + 1

/-- Lower a let binding (`lower_let_bind` in `src/mir/lower.rs`): the body
is a placeholder unit literal located at `(end, end)`, later replaced by
the block combiner. -/
def lower_let_bind (loc : Location) (nm : Located Name)
    (annot : Option (Located Ty)) (rhs : Located Node) :
    LowerResult (Located Term) :=
  match lower_node rhs with
  | .error e => .error e
  | .ok t =>
    .ok ⟨.letE (.NonRec annot) nm t ⟨.lit .unit, ⟨loc.endPos, loc.endPos⟩⟩, loc⟩
termination_by sizeOf rhs + 1

/-- Lower a function definition (`lower_fn_def` in `src/mir/lower.rs`).
The return type annotation is folded through the binding types, the binding
kind is decided from the name and the recursion analysis, the body becomes
nested abstractions, and a named definition is wrapped in a `Let` with a
placeholder unit body. -/
def lower_fn_def (loc : Location) (optName : Option (Located Name))
    (binds : List (Located Binding)) (body : Located Block)
    (optTy : Option (Located Ty)) : LowerResult (Located Term) :=
  let optTy2 := optTy.map fun lty => Located.mk (tyRevFold lty.content binds.reverse) lty.loc
  let kindRes : LowerResult LetKind :=
    match optName with
    | some nm =>
      if RecursionChecker.run nm.content body.content then
        match optTy2 with
        | some lty => .ok (.Rec lty)
        | none => .error (.RecWithoutTy nm.loc)
      else
        .ok (.NonRec optTy2)
    | none =>
      match optTy2 with
      | some lty => .error (.AnonWithTy lty.loc)
      | none => .ok (.NonRec none)
  match kindRes with
  | .error e => .error e
  | .ok kind =>
    match lower_blk body with
    | .error e => .error e
    | .ok t =>
      let t2 := absRevFold loc t binds.reverse
      match optName with
      | some nm =>
        .ok ⟨.letE kind nm t2 ⟨.lit .unit, ⟨loc.endPos, loc.endPos⟩⟩, loc⟩
      | none => .ok t2
termination_by sizeOf body + 1

end

/-- Modelled from the spec: kind tag of a LIR let binding (the LIR data
model of §3.4 is not part of the verified tree). -/
inductive LirKind where
  | NonRec
  | Rec
deriving DecidableEq, Repr

/-- Modelled from the spec: LIR, the de-Bruijn indexed term language
consumed by the evaluator (§3.4; not part of the verified tree). -/
inductive LTerm where
  | lit (l : Literal)
  | var (i : Nat)
  | primFn (p : Prim)
  | binaryOp (op : BinOp) (a b : LTerm)
  | unaryOp (op : UnOp) (a : LTerm)
  | cond (c t e : LTerm)
  | app (f a : LTerm)
  | abs (body : LTerm)
  | letE (k : LirKind) (v body : LTerm)
  | seq (a b : LTerm)
deriving DecidableEq, Repr

/-- Modelled from the spec: runtime values (§3.5).  `recClos` realises the
fix-point encoding of recursive bindings described in §9: applying it
unfolds the bound term once with the recursive slot in scope. -/
inductive Value where
  | int (i : Int)
  | bool (b : Bool)
  | unit
  | closure (env : List Value) (body : LTerm)
  | recClos (env : List Value) (v : LTerm)
  | prim (p : Prim)

/-- Modelled from the spec: errors of the evaluation pass (§7). -/
inductive EvalError where
  | Overflow
  | DivByZero
  | TypeMismatch
  | UnboundVar
deriving DecidableEq, Repr

/-- Modelled from the spec: outcome of a fuel-bounded evaluation step:
out of fuel, a runtime fault, or a value together with the text printed
while producing it. -/
inductive EvalResult where
  | timeout
  | fault (e : EvalError)
  | ok (v : Value) (out : String)

/-- Sequencing of evaluation outcomes. -/
def EvalResult.bind (r : EvalResult) (f : Value → String → EvalResult) : EvalResult :=
  match r with
  | .timeout => .timeout
  | .fault e => .fault e
  | .ok v o => f v o

/-- The smallest `i64` value. -/
def i64Min : Int := -(2 ^ 63)

/-- The largest `i64` value. -/
def i64Max : Int := 2 ^ 63 - 1

/-- Checked arithmetic: an integer result outside the `i64` range is a
runtime `Overflow` (§4.5). -/
def checkedInt (i : Int) : Except EvalError Value :=
  if i < i64Min ∨ i64Max < i then .error .Overflow else .ok (.int i)

/-- Two's-complement encoding of an `i64` as an unsigned 64-bit number. -/
def toU64 (i : Int) : Nat := (i % (2 ^ 64)).toNat

/-- Decode an unsigned 64-bit number back into a signed `i64`. -/
def fromU64 (n : Nat) : Int :=
  if n < 2 ^ 63 then (n : Int) else (n : Int) - 2 ^ 64

/-- Decimal rendering of an integer, as the value printer uses (§4.5). -/
def intDecimal : Int → String
  | .ofNat n => toString n
  | .negSucc n => "-" ++ toString (n + 1)

/-- Modelled from the spec: structural rendering of LIR terms used when
printing closures, with de-Bruijn variables shown as underscore-index
(§4.5). -/
def printTerm : LTerm → String
  | .lit (.int i) => intDecimal i
  | .lit (.bool true) => "true"
  | .lit (.bool false) => "false"
  | .lit .unit => "unit"
  | .var i => "_" ++ toString i
  | .primFn .print => "print"
  | .abs body => "(λ. " ++ printTerm body ++ ")"
  | .app f a => "(" ++ printTerm f ++ " " ++ printTerm a ++ ")"
  | .binaryOp _ a b => "(" ++ printTerm a ++ " · " ++ printTerm b ++ ")"
  | .unaryOp _ a => "(· " ++ printTerm a ++ ")"
  | .cond c t e =>
    "(if " ++ printTerm c ++ " then " ++ printTerm t ++ " else " ++ printTerm e ++ ")"
  | .letE _ v body => "(let " ++ printTerm v ++ " in " ++ printTerm body ++ ")"
  | .seq a b => "(" ++ printTerm a ++ "; " ++ printTerm b ++ ")"

/-- Modelled from the spec: the value printer (§4.5): integers in decimal,
`true` as `1`, `false` as `0`, unit as `unit`, closures via the term
renderer. -/
def printValue : Value → String
  | .int i => intDecimal i
  | .bool true => "1"
  | .bool false => "0"
  | .unit => "unit"
  | .closure _ body => "(λ. " ++ printTerm body ++ ")"
  | .recClos _ v => "(λ. " ++ printTerm v ++ ")"
  | .prim .print => "print"

/-- Modelled from the spec: the non-short-circuit binary operators on
values (§4.5): checked arithmetic, two's-complement bitwise operations,
range-checked shifts, comparisons, and equality on base values.  `And` and
`Or` are handled by the machine itself and never reach this function. -/
def applyBinOp : BinOp → Value → Value → Except EvalError Value
  | .Add, .int a, .int b => checkedInt (a + b)
  | .Sub, .int a, .int b => checkedInt (a - b)
  | .Mul, .int a, .int b => checkedInt (a * b)
  | .Div, .int a, .int b =>
    if b = 0 then .error .DivByZero else checkedInt (Int.tdiv a b)
  | .Rem, .int a, .int b =>
    if b = 0 then .error .DivByZero else checkedInt (Int.tmod a b)
  | .BitAnd, .int a, .int b => .ok (.int (fromU64 (Nat.land (toU64 a) (toU64 b))))
  | .BitOr, .int a, .int b => .ok (.int (fromU64 (Nat.lor (toU64 a) (toU64 b))))
  | .BitXor, .int a, .int b => .ok (.int (fromU64 (Nat.xor (toU64 a) (toU64 b))))
  | .Shl, .int a, .int b =>
    if b < 0 ∨ 64 ≤ b then .error .Overflow
    else .ok (.int (fromU64 (Nat.shiftLeft (toU64 a) b.toNat % 2 ^ 64)))
  | .Shr, .int a, .int b =>
    if b < 0 ∨ 64 ≤ b then .error .Overflow
    else .ok (.int (Int.ediv a (2 ^ b.toNat)))
  | .Lt, .int a, .int b => .ok (.bool (decide (a < b)))
  | .Gt, .int a, .int b => .ok (.bool (decide (b < a)))
  | .Lte, .int a, .int b => .ok (.bool (decide (a ≤ b)))
  | .Gte, .int a, .int b => .ok (.bool (decide (b ≤ a)))
  | .Eq, .int a, .int b => .ok (.bool (a == b))
  | .Eq, .bool a, .bool b => .ok (.bool (a == b))
  | .Eq, .unit, .unit => .ok (.bool true)
  | .Neq, .int a, .int b => .ok (.bool (a != b))
  | .Neq, .bool a, .bool b => .ok (.bool (a != b))
  | .Neq, .unit, .unit => .ok (.bool false)
  | _, _, _ => .error .TypeMismatch

/-- Modelled from the spec: the unary operators on values (§4.5). -/
def applyUnOp : UnOp → Value → Except EvalError Value
  | .Neg, .int a => checkedInt (-a)
  | .Not, .bool b => .ok (.bool (!b))
  | _, _ => .error .TypeMismatch

/-- Lift a pure operator result into an evaluation outcome. -/
def liftResult (r : Except EvalError Value) (out : String) : EvalResult :=
  match r with
  | .error e => .fault e
  | .ok v => .ok v out

/-- Modelled from the spec: the environment machine over LIR (§4.5),
bounded by fuel.  Evaluation is strict and left-to-right; conditionals are
lazy in their branches and `And`/`Or` are short-circuit in their second
operand.  Recursive lets bind a fix-point value that is unfolded at
application time (§9). -/
def eval : Nat → List Value → LTerm → EvalResult
  | 0, _, _ => .timeout
  | _ + 1, _, .lit (.bool b) => .ok (.bool b) ""
  | _ + 1, _, .lit (.int i) => .ok (.int i) ""
  | _ + 1, _, .lit .unit => .ok .unit ""
  | _ + 1, env, .var i =>
    match env.get? i with
    | some v => .ok v ""
    | none => .fault .UnboundVar
  | _ + 1, _, .primFn p => .ok (.prim p) ""
  | _ + 1, env, .abs body => .ok (.closure env body) ""
  | fuel + 1, env, .app f x =>
    (eval fuel env f).bind fun vf o1 =>
    (eval fuel env x).bind fun vx o2 =>
    match vf with
    | .closure cenv body =>
      (eval fuel (vx :: cenv) body).bind fun v o3 => .ok v (o1 ++ o2 ++ o3)
    | .recClos renv rv =>
      (eval fuel (Value.recClos renv rv :: renv) rv).bind fun vf2 o3 =>
      match vf2 with
      | .closure cenv body =>
        (eval fuel (vx :: cenv) body).bind fun v o4 => .ok v (o1 ++ o2 ++ o3 ++ o4)
      | _ => .fault .TypeMismatch
    | .prim .print => .ok .unit (o1 ++ o2 ++ printValue vx ++ "\n")
    | _ => .fault .TypeMismatch
  | fuel + 1, env, .binaryOp .And a b =>
    (eval fuel env a).bind fun va o1 =>
    match va with
    | .bool false => .ok (.bool false) o1
    | .bool true =>
      (eval fuel env b).bind fun vb o2 =>
      match vb with
      | .bool bb => .ok (.bool bb) (o1 ++ o2)
      | _ => .fault .TypeMismatch
    | _ => .fault .TypeMismatch
  | fuel + 1, env, .binaryOp .Or a b =>
    (eval fuel env a).bind fun va o1 =>
    match va with
    | .bool true => .ok (.bool true) o1
    | .bool false =>
      (eval fuel env b).bind fun vb o2 =>
      match vb with
      | .bool bb => .ok (.bool bb) (o1 ++ o2)
      | _ => .fault .TypeMismatch
    | _ => .fault .TypeMismatch
  | fuel + 1, env, .binaryOp op a b =>
    (eval fuel env a).bind fun va o1 =>
    (eval fuel env b).bind fun vb o2 =>
    liftResult (applyBinOp op va vb) (o1 ++ o2)
  | fuel + 1, env, .unaryOp op a =>
    (eval fuel env a).bind fun va o1 => liftResult (applyUnOp op va) o1
  | fuel + 1, env, .cond c t e =>
    (eval fuel env c).bind fun vc o1 =>
    match vc with
    | .bool true => (eval fuel env t).bind fun v o2 => .ok v (o1 ++ o2)
    | .bool false => (eval fuel env e).bind fun v o2 => .ok v (o1 ++ o2)
    | _ => .fault .TypeMismatch
  | fuel + 1, env, .letE .NonRec v body =>
    (eval fuel env v).bind fun vv o1 =>
    (eval fuel (vv :: env) body).bind fun vb o2 => .ok vb (o1 ++ o2)
  | fuel + 1, env, .letE .Rec v body =>
    (eval fuel (Value.recClos env v :: env) body).bind fun vb o => .ok vb o
  | fuel + 1, env, .seq a b =>
    (eval fuel env a).bind fun _ o1 =>
    (eval fuel env b).bind fun vb o2 => .ok vb (o1 ++ o2)

/-- Modelled from the spec: error of the LIR lowering pass (§4.4). -/
inductive LirError where
  | Unbound (n : Name)
deriving DecidableEq, Repr

/-- Modelled from the spec: MIR to LIR lowering (§4.4), a de-Bruijn
conversion over a name stack whose top is the most recent binder.
Recursive lets push the bound name before lowering their value. -/
def lowerLir (stack : List Name) : Located Term → Except LirError LTerm
  | ⟨.lit l, _⟩ => .ok (.lit l)
  | ⟨.var n, _⟩ =>
    match stack.findIdx? (fun m => m == n) with
    | some i => .ok (.var i)
    | none => .error (.Unbound n)
  | ⟨.primFn p, _⟩ => .ok (.primFn p)
  | ⟨.binaryOp op a b, _⟩ =>
    match lowerLir stack a with
    | .error e => .error e
    | .ok a2 =>
      match lowerLir stack b with
      | .error e => .error e
      | .ok b2 => .ok (.binaryOp op a2 b2)
  | ⟨.unaryOp op a, _⟩ =>
    match lowerLir stack a with
    | .error e => .error e
    | .ok a2 => .ok (.unaryOp op a2)
  | ⟨.cond c t e, _⟩ =>
    match lowerLir stack c with
    | .error err => .error err
    | .ok c2 =>
      match lowerLir stack t with
      | .error err => .error err
      | .ok t2 =>
        match lowerLir stack e with
        | .error err => .error err
        | .ok e2 => .ok (.cond c2 t2 e2)
  | ⟨.app f a, _⟩ =>
    match lowerLir stack f with
    | .error e => .error e
    | .ok f2 =>
      match lowerLir stack a with
      | .error e => .error e
      | .ok a2 => .ok (.app f2 a2)
  | ⟨.abs b body, _⟩ =>
    match lowerLir (b.name :: stack) body with
    | .error e => .error e
    | .ok body2 => .ok (.abs body2)
  | ⟨.letE (.NonRec _) nm v body, _⟩ =>
    match lowerLir stack v with
    | .error e => .error e
    | .ok v2 =>
      match lowerLir (nm.content :: stack) body with
      | .error e => .error e
      | .ok body2 => .ok (.letE .NonRec v2 body2)
  | ⟨.letE (.Rec _) nm v body, _⟩ =>
    match lowerLir (nm.content :: stack) v with
    | .error e => .error e
    | .ok v2 =>
      match lowerLir (nm.content :: stack) body with
      | .error e => .error e
      | .ok body2 => .ok (.letE .Rec v2 body2)
  | ⟨.seq a b, _⟩ =>
    match lowerLir stack a with
    | .error e => .error e
    | .ok a2 =>
      match lowerLir stack b with
      | .error e => .error e
      | .ok b2 => .ok (.seq a2 b2)

/-- Modelled from the spec: errors of the type-checking pass (§7), with an
additional fuel marker for the bounded unification loop. -/
inductive TyError where
  | Mismatch
  | RecursiveType
  | Unbound (n : Name)
  | NoFuel
deriving DecidableEq, Repr

/-- Modelled from the spec: constraint generation (§4.3).  Walks MIR under
a context, returning the inferred type, the emitted equality constraints
and the next fresh type-variable index. -/
def tyGen (ctx : List (Name × Ty)) (k : Nat) :
    Located Term → Except TyError (Ty × List (Ty × Ty) × Nat)
  | ⟨.lit (.bool _), _⟩ => .ok (.bool, [], k)
  | ⟨.lit (.int _), _⟩ => .ok (.int, [], k)
  | ⟨.lit .unit, _⟩ => .ok (.unit, [], k)
  | ⟨.var n, _⟩ =>
    match ctx.find? (fun p => p.1 == n) with
    | some p => .ok (p.2, [], k)
    | none => .error (.Unbound n)
  | ⟨.primFn .print, _⟩ => .ok (.arrow (.var k) .unit, [], k + 1)
  | ⟨.binaryOp op a b, _⟩ =>
    match tyGen ctx k a with
    | .error e => .error e
    | .ok (ta, cs1, k1) =>
      match tyGen ctx k1 b with
      | .error e => .error e
      | .ok (tb, cs2, k2) =>
        match op with
        | .And | .Or => .ok (.bool, cs1 ++ cs2 ++ [(ta, .bool), (tb, .bool)], k2)
        | .Lt | .Gt | .Lte | .Gte => .ok (.bool, cs1 ++ cs2 ++ [(ta, .int), (tb, .int)], k2)
        | .Eq | .Neq => .ok (.bool, cs1 ++ cs2 ++ [(ta, tb)], k2)
        | _ => .ok (.int, cs1 ++ cs2 ++ [(ta, .int), (tb, .int)], k2)
  | ⟨.unaryOp op a, _⟩ =>
    match tyGen ctx k a with
    | .error e => .error e
    | .ok (ta, cs1, k1) =>
      match op with
      | .Neg => .ok (.int, cs1 ++ [(ta, .int)], k1)
      | .Not => .ok (.bool, cs1 ++ [(ta, .bool)], k1)
  | ⟨.cond c t e, _⟩ =>
    match tyGen ctx k c with
    | .error err => .error err
    | .ok (tc, cs1, k1) =>
      match tyGen ctx k1 t with
      | .error err => .error err
      | .ok (tt, cs2, k2) =>
        match tyGen ctx k2 e with
        | .error err => .error err
        | .ok (te, cs3, k3) =>
          .ok (tt, cs1 ++ cs2 ++ cs3 ++ [(tc, .bool), (tt, te)], k3)
  | ⟨.app f x, _⟩ =>
    match tyGen ctx k f with
    | .error e => .error e
    | .ok (tf, cs1, k1) =>
      match tyGen ctx k1 x with
      | .error e => .error e
      | .ok (tx, cs2, k2) =>
        .ok (.var k2, cs1 ++ cs2 ++ [(tf, .arrow tx (.var k2))], k2 + 1)
  | ⟨.abs b body, _⟩ =>
    match tyGen ((b.name, b.ty) :: ctx) k body with
    | .error e => .error e
    | .ok (tb, cs1, k1) => .ok (.arrow b.ty tb, cs1, k1)
  | ⟨.letE (.NonRec annot) nm v body, _⟩ =>
    match tyGen ctx k v with
    | .error e => .error e
    | .ok (tv, cs1, k1) =>
      let cs1 := match annot with
        | some lty => cs1 ++ [(tv, lty.content)]
        | none => cs1
      match tyGen ((nm.content, tv) :: ctx) k1 body with
      | .error e => .error e
      | .ok (tbody, cs2, k2) => .ok (tbody, cs1 ++ cs2, k2)
  | ⟨.letE (.Rec lty) nm v body, _⟩ =>
    match tyGen ((nm.content, lty.content) :: ctx) k v with
    | .error e => .error e
    | .ok (tv, cs1, k1) =>
      match tyGen ((nm.content, lty.content) :: ctx) k1 body with
      | .error e => .error e
      | .ok (tbody, cs2, k2) => .ok (tbody, cs1 ++ [(tv, lty.content)] ++ cs2, k2)
  | ⟨.seq a b, _⟩ =>
    match tyGen ctx k a with
    | .error e => .error e
    | .ok (ta, cs1, k1) =>
      match tyGen ctx k1 b with
      | .error e => .error e
      | .ok (tb, cs2, k2) => .ok (tb, cs1 ++ cs2 ++ [(ta, .unit)], k2)

/-- Substitution of a type variable inside a type. -/
def substTy (u : Nat) (s : Ty) : Ty → Ty
  | .bool => .bool
  | .int => .int
  | .unit => .unit
  | .arrow t1 t2 => .arrow (substTy u s t1) (substTy u s t2)
  | .var v => if v == u then s else .var v

/-- Substitution of a type variable inside a constraint list. -/
def substConstrs (u : Nat) (s : Ty) (cs : List (Ty × Ty)) : List (Ty × Ty) :=
  cs.map fun c => (substTy u s c.1, substTy u s c.2)

/-- Modelled from the spec: first-order unification with occurs-check
(§4.3, phase 2), bounded by fuel. -/
def unify : Nat → List (Ty × Ty) → Except TyError Unit
  | 0, _ => .error .NoFuel
  | _ + 1, [] => .ok ()
  | fuel + 1, (t1, t2) :: cs =>
    if t1 = t2 then unify fuel cs
    else
      match t1, t2 with
      | .var u, t =>
        if t.contains u then .error .RecursiveType
        else unify fuel (substConstrs u t cs)
      | t, .var u =>
        if t.contains u then .error .RecursiveType
        else unify fuel (substConstrs u t cs)
      | .arrow a b, .arrow c d => unify fuel ((a, c) :: (b, d) :: cs)
      | _, _ => .error .Mismatch

/-- Modelled from the spec: the type-checking pass: generate constraints
from an empty context and unify them. -/
def ty_check (fuel : Nat) (t : Located Term) : Except TyError Unit :=
  match tyGen [] 0 t with
  | .error e => .error e
  | .ok (_, cs, _) => unify fuel cs

/-- An error of any pass of the pipeline. -/
inductive LangError where
  | Lower (e : LowerError)
  | Ty (e : TyError)
  | Lir (e : LirError)
  | Eval (e : EvalError)
  | Timeout

/-- Modelled from the spec: the driver (§4.6) after parsing: MIR lowering,
type-checking, LIR lowering, then evaluation; the output buffer is returned
on success and the first error otherwise.  `fuel` bounds the unification
loop and the machine. -/
def pipeline (fuel : Nat) (blk : Located Block) : Except LangError String :=
  match lower_blk blk with
  | .error e => .error (.Lower e)
  | .ok mir =>
    match ty_check fuel mir with
    | .error e => .error (.Ty e)
    | .ok _ =>
      match lowerLir [] mir with
      | .error e => .error (.Lir e)
      | .ok lt =>
        match eval fuel [] lt with
        | .ok _ out => .ok out
        | .fault e => .error (.Eval e)
        | .timeout => .error .Timeout

/-- Occurrence of the type variable `u` as a subterm of a type, stated the
way the specification describes the occurs check. -/
inductive TyOccurs (u : Nat) : Ty → Prop where
  | varHere : TyOccurs u (.var u)
  | arrowL {t1 t2 : Ty} : TyOccurs u t1 → TyOccurs u (.arrow t1 t2)
  | arrowR {t1 t2 : Ty} : TyOccurs u t2 → TyOccurs u (.arrow t1 t2)

/-- Occurrence of the `missing` marker at any depth of a surface
annotation, stated the way the claim describes it. -/
inductive HasMissing : TyAST → Prop where
  | here : HasMissing .missing
  | arrowL {t1 t2 : TyAST} : HasMissing t1 → HasMissing (.arrow t1 t2)
  | arrowR {t1 t2 : TyAST} : HasMissing t2 → HasMissing (.arrow t1 t2)

/-- The structural image of a surface annotation as an internal type:
base types map to themselves and arrows map componentwise; the `missing`
marker has no image. -/
inductive StructImage : TyAST → Ty → Prop where
  | bool : StructImage .bool .bool
  | int : StructImage .int .int
  | unit : StructImage .unit .unit
  | arrow {a1 a2 : TyAST} {s1 s2 : Ty} :
      StructImage a1 s1 → StructImage a2 s2 →
      StructImage (.arrow a1 a2) (.arrow s1 s2)

/-- A sample location used by concrete programs and witnesses. -/
def testLoc : Location := ⟨0, 0⟩

/-- An integer literal node at the sample location. -/
def intNode (i : Int) : Located Node := ⟨.literal (.int i), testLoc⟩

/-- The surface tree of the program `print((1 + 2) * (3 + 4 * 10))`,
following the operator precedence of §6. -/
def arithmeticProgram : Located Block :=
  ⟨[⟨.call ⟨.primFn .print, testLoc⟩
      [⟨.binaryOp .Mul
          ⟨.binaryOp .Add (intNode 1) (intNode 2), testLoc⟩
          ⟨.binaryOp .Add (intNode 3)
            ⟨.binaryOp .Mul (intNode 4) (intNode 10), testLoc⟩, testLoc⟩,
        testLoc⟩], testLoc⟩], testLoc⟩

/-- The MIR term the arithmetic program lowers to. -/
def arithmeticMir : Located Term :=
  ⟨.app ⟨.primFn .print, testLoc⟩
     ⟨.binaryOp .Mul
        ⟨.binaryOp .Add ⟨.lit (.int 1), testLoc⟩ ⟨.lit (.int 2), testLoc⟩, testLoc⟩
        ⟨.binaryOp .Add ⟨.lit (.int 3), testLoc⟩
           ⟨.binaryOp .Mul ⟨.lit (.int 4), testLoc⟩ ⟨.lit (.int 10), testLoc⟩,
             testLoc⟩, testLoc⟩, testLoc⟩, testLoc⟩

/-- The LIR term the arithmetic program lowers to. -/
def arithmeticLir : LTerm :=
  .app (.primFn .print)
    (.binaryOp .Mul (.binaryOp .Add (.lit (.int 1)) (.lit (.int 2)))
      (.binaryOp .Add (.lit (.int 3)) (.binaryOp .Mul (.lit (.int 4)) (.lit (.int 10)))))

/-- C6: for every internal type and variable index, `Ty.contains` decides
exactly the occurrence of that type variable as a subterm: false on the
base types, a disjunction over the components of an arrow, and equality of
indices on a variable. -/
theorem contains_iff_var_subterm (t : Ty) (u : Nat) :
    t.contains u = true ↔ TyOccurs u t := by
  induction t with
  | bool =>
    constructor
    · intro h; simp [Ty.contains] at h
    · intro h; cases h
  | int =>
    constructor
    · intro h; simp [Ty.contains] at h
    · intro h; cases h
  | unit =>
    constructor
    · intro h; simp [Ty.contains] at h
    · intro h; cases h
  | arrow t1 t2 ih1 ih2 =>
    constructor
    · intro h
      simp [Ty.contains] at h
      rcases h with h | h
      · exact .arrowL (ih1.mp h)
      · exact .arrowR (ih2.mp h)
    · intro h
      cases h with
      | arrowL h => simp [Ty.contains]; exact Or.inl (ih1.mpr h)
      | arrowR h => simp [Ty.contains]; exact Or.inr (ih2.mpr h)
  | var v =>
    constructor
    · intro h
      simp [Ty.contains] at h
      subst h
      exact .varHere
    · intro h
      cases h
      simp [Ty.contains]

/-- C9: equality of lowering errors is tag-equality: values of the same
variant are equal whatever their location payloads, and values of distinct
variants are never equal. -/
theorem lower_error_tag_equality (l1 l2 : Location) :
    LowerError.eq (.RecWithoutTy l1) (.RecWithoutTy l2) = true ∧
    LowerError.eq (.AnonWithTy l1) (.AnonWithTy l2) = true ∧
    LowerError.eq (.RecWithoutTy l1) (.AnonWithTy l2) = false ∧
    LowerError.eq (.AnonWithTy l1) (.RecWithoutTy l2) = false := by
  simp [LowerError.eq, LowerError.discriminant]

/-- C10: `Ty.from_ast` returns `none` exactly when the annotation contains
the `missing` marker at some depth, and otherwise returns the structural
image of the annotation. -/
theorem from_ast_missing_none (t : TyAST) :
    (Ty.from_ast t = none ↔ HasMissing t) ∧
    (∀ s : Ty, Ty.from_ast t = some s ↔ StructImage t s) := by
  induction t with
  | missing =>
    refine ⟨⟨fun _ => .here, fun _ => rfl⟩, fun s => ⟨fun h => ?_, fun h => ?_⟩⟩
    · simp [Ty.from_ast] at h
    · cases h
  | bool =>
    refine ⟨⟨fun h => ?_, fun h => ?_⟩, fun s => ⟨fun h => ?_, fun h => ?_⟩⟩
    · simp [Ty.from_ast] at h
    · cases h
    · simp [Ty.from_ast] at h; subst h; exact .bool
    · cases h; rfl
  | int =>
    refine ⟨⟨fun h => ?_, fun h => ?_⟩, fun s => ⟨fun h => ?_, fun h => ?_⟩⟩
    · simp [Ty.from_ast] at h
    · cases h
    · simp [Ty.from_ast] at h; subst h; exact .int
    · cases h; rfl
  | unit =>
    refine ⟨⟨fun h => ?_, fun h => ?_⟩, fun s => ⟨fun h => ?_, fun h => ?_⟩⟩
    · simp [Ty.from_ast] at h
    · cases h
    · simp [Ty.from_ast] at h; subst h; exact .unit
    · cases h; rfl
  | arrow a1 a2 ih1 ih2 =>
    obtain ⟨ih1n, ih1s⟩ := ih1
    obtain ⟨ih2n, ih2s⟩ := ih2
    cases h1 : Ty.from_ast a1 with
    | none =>
      refine ⟨⟨fun _ => .arrowL (ih1n.mp h1), fun _ => ?_⟩,
        fun s => ⟨fun h => ?_, fun h => ?_⟩⟩
      · simp [Ty.from_ast, h1]
      · simp [Ty.from_ast, h1] at h
      · cases h with
        | arrow hs1 hs2 =>
          exact absurd ((ih1s _).mpr hs1) (by simp [h1])
    | some s1 =>
      cases h2 : Ty.from_ast a2 with
      | none =>
        refine ⟨⟨fun _ => .arrowR (ih2n.mp h2), fun _ => ?_⟩,
          fun s => ⟨fun h => ?_, fun h => ?_⟩⟩
        · simp [Ty.from_ast, h1, h2]
        · simp [Ty.from_ast, h1, h2] at h
        · cases h with
          | arrow hs1 hs2 =>
            exact absurd ((ih2s _).mpr hs2) (by simp [h2])
      | some s2 =>
        refine ⟨⟨fun h => ?_, fun h => ?_⟩, fun s => ⟨fun h => ?_, fun h => ?_⟩⟩
        · simp [Ty.from_ast, h1, h2] at h
        · cases h with
          | arrowL hm => exact absurd (ih1n.mpr hm) (by simp [h1])
          | arrowR hm => exact absurd (ih2n.mpr hm) (by simp [h2])
        · simp [Ty.from_ast, h1, h2] at h
          subst h
          exact .arrow ((ih1s s1).mp h1) ((ih2s s2).mp h2)
        · cases h with
          | arrow hs1 hs2 =>
            have e1 := (ih1s _).mpr hs1
            have e2 := (ih2s _).mpr hs2
            rw [h1] at e1
            rw [h2] at e2
            cases e1
            cases e2
            simp [Ty.from_ast, h1, h2]

/-- C7: the machine short-circuits: `false && E` evaluates to `false` and
`true || E` evaluates to `true` for every operand term `E`, with no output
produced, so `E` itself is never evaluated whatever it would do. -/
theorem short_circuit_no_eval (E : LTerm) (env : List Value) (n : Nat) :
    eval (n + 2) env (.binaryOp .And (.lit (.bool false)) E) = .ok (.bool false) "" ∧
    eval (n + 2) env (.binaryOp .Or (.lit (.bool true)) E) = .ok (.bool true) "" :=
  ⟨rfl, rfl⟩

/-- C8: arithmetic is checked: adding one to the largest `i64` value and
negating the smallest `i64` value both fail with the evaluation error
`Overflow`. -/
theorem overflow_checked_arithmetic :
    eval 3 [] (.binaryOp .Add (.lit (.int 9223372036854775807)) (.lit (.int 1)))
      = .fault .Overflow ∧
    eval 3 [] (.unaryOp .Neg (.lit (.int (-9223372036854775808))))
      = .fault .Overflow :=
  ⟨rfl, rfl⟩

/-- C3: the full pipeline maps the program `print((1 + 2) * (3 + 4 * 10))`
to exactly the output `"129\n"`. -/
theorem pipeline_arithmetic_output : pipeline 64 arithmeticProgram = .ok "129\n" := by
  have hmir : lower_blk arithmeticProgram = .ok arithmeticMir := by
    simp [arithmeticProgram, intNode, lower_blk, lower_blk_rev, lower_node,
      lower_call, lower_callFold, lower_binary_op, lower_fold, arithmeticMir]
  have hty : ty_check 64 arithmeticMir = .ok () := by
    simp [arithmeticMir, ty_check, tyGen, unify, substConstrs, substTy, Ty.contains]
  have hlir : lowerLir [] arithmeticMir = .ok arithmeticLir := by
    simp [arithmeticMir, lowerLir, arithmeticLir]
  have heval : eval 64 [] arithmeticLir = .ok .unit "129\n" := by rfl
  simp [pipeline, hmir, hty, hlir, heval]

/-- Appending one trailing element to the statements folded by
`lower_fold` is the same as folding first and then combining the extra
statement with the result. -/
theorem lower_fold_append (t : Located Term) (ns : List (Located Node)) (s : Located Node) :
    lower_fold t (ns ++ [s]) =
      match lower_fold t ns with
      | .error e => .error e
      | .ok r =>
        match lower_node s with
        | .error e => .error e
        | .ok s2 => .ok (blkStep s2 r) := by
  induction ns generalizing t with
  | nil =>
    cases h : lower_node s <;> simp [lower_fold, h]
  | cons n ns ih =>
    have hc : (n :: ns) ++ [s] = n :: (ns ++ [s]) := rfl
    rw [hc]
    cases h : lower_node n with
    | error e => simp [lower_fold, h]
    | ok p => simp [lower_fold, h, ih]

/-- C1: block lowering processes statements right-to-left: the empty block
becomes a unit literal at the block's location, a single statement lowers
to its own lowering, and each earlier statement is combined with the
lowering of the remainder by `blkStep` (a `Let` captures the rest as its
body, anything else is sequenced before it). -/
theorem lower_blk_right_to_left :
    (∀ loc : Location, lower_blk ⟨[], loc⟩ = .ok ⟨.lit .unit, loc⟩) ∧
    (∀ (s : Located Node) (loc : Location), lower_blk ⟨[s], loc⟩ = lower_node s) ∧
    (∀ (s : Located Node) (rest : Block) (loc : Location), rest ≠ [] →
      lower_blk ⟨s :: rest, loc⟩ =
        match lower_blk ⟨rest, loc⟩ with
        | .error e => .error e
        | .ok r =>
          match lower_node s with
          | .error e => .error e
          | .ok s2 => .ok (blkStep s2 r)) := by
  refine ⟨fun loc => ?_, fun s loc => ?_, fun s rest loc hne => ?_⟩
  · simp [lower_blk, lower_blk_rev]
  · rw [lower_blk]
    cases h : lower_node s <;> simp [lower_blk_rev, lower_fold, h]
  · obtain ⟨n, ns, hrev⟩ : ∃ n ns, rest.reverse = n :: ns := by
      cases h : rest.reverse with
      | nil =>
        cases rest with
        | nil => exact absurd rfl hne
        | cons a l => simp at h
      | cons n ns => exact ⟨n, ns, rfl⟩
    have hl : (s :: rest).reverse = n :: (ns ++ [s]) := by
      rw [List.reverse_cons, hrev]
      rfl
    rw [lower_blk, lower_blk, hl, hrev]
    cases h : lower_node n with
    | error e => simp [lower_blk_rev, h]
    | ok t => simp [lower_blk_rev, h, lower_fold_append]

/-- C1 witness: a two-statement block whose first statement is not a let is
sequenced before the lowering of the rest. -/
theorem lower_blk_right_to_left_witness :
    lower_blk ⟨[intNode 1, ⟨.literal .unit, testLoc⟩], testLoc⟩ =
      .ok ⟨.seq ⟨.lit (.int 1), testLoc⟩ ⟨.lit .unit, testLoc⟩, testLoc⟩ := by
  have h := lower_blk_right_to_left.2.2 (intNode 1) [⟨.literal .unit, testLoc⟩]
      testLoc (by simp)
  rw [h]
  simp [lower_blk, lower_blk_rev, lower_node, lower_fold, intNode, blkStep]

/-- The argument loop of `lower_call` produces the left-nested application
fold of the already-lowered arguments. -/
theorem lower_callFold_mapM (loc : Location) (args : List (Located Node)) :
    ∀ (t : Located Term) (args2 : List (Located Term)),
      args.mapM lower_node = .ok args2 →
      lower_callFold loc t args =
        .ok (args2.foldl (fun acc a => Located.mk (Term.app acc a) loc) t) := by
  induction args with
  | nil =>
    intro t args2 h
    injection h with h
    subst h
    simp [lower_callFold]
  | cons a rest ih =>
    intro t args2 h
    rw [List.mapM_cons] at h
    cases ha : lower_node a with
    | error e => rw [ha] at h; exact Except.noConfusion h
    | ok a2 =>
      rw [ha] at h
      cases hr : rest.mapM lower_node with
      | error e => rw [hr] at h; exact Except.noConfusion h
      | ok rest2 =>
        rw [hr] at h
        injection h with h
        subst h
        simp only [lower_callFold, ha, List.foldl_cons]
        exact ih ⟨.app t a2, loc⟩ rest2 hr

/-- C5: lowering a call produces the left-nested curried application of the
lowered callee to the lowered arguments, every introduced application
carrying the call's location; an empty argument list yields the lowered
callee alone. -/
theorem lower_call_curried_apps (loc : Location) (f : Located Node)
    (args : List (Located Node)) (f2 : Located Term) (args2 : List (Located Term))
    (hf : lower_node f = .ok f2) (hargs : args.mapM lower_node = .ok args2) :
    lower_node ⟨.call f args, loc⟩ =
      .ok (args2.foldl (fun acc a => Located.mk (Term.app acc a) loc) f2) := by
  have h1 : lower_node ⟨.call f args, loc⟩ = lower_call loc f args := by
    simp [lower_node]
  rw [h1]
  rw [lower_call, hf]
  exact lower_callFold_mapM loc args f2 args2 hargs

/-- C5 witness: a one-argument call of the print primitive lowers to a
single application node. -/
theorem lower_call_curried_apps_witness :
    lower_node ⟨.call ⟨.primFn .print, testLoc⟩ [intNode 1], testLoc⟩ =
      .ok ⟨.app ⟨.primFn .print, testLoc⟩ ⟨.lit (.int 1), testLoc⟩, testLoc⟩ := by
  have h := lower_call_curried_apps testLoc ⟨.primFn .print, testLoc⟩ [intNode 1]
      ⟨.primFn .print, testLoc⟩ [⟨.lit (.int 1), testLoc⟩]
      (by simp [lower_node])
      (by simp [List.mapM_cons, List.mapM_nil, List.mapM.loop, intNode, lower_node])
  simpa using h

/-- Folding the type accumulator over an appended list splits into two
folds. -/
theorem tyRevFold_append (t : Ty) (l1 l2 : List (Located Binding)) :
    tyRevFold t (l1 ++ l2) = tyRevFold (tyRevFold t l1) l2 := by
  induction l1 generalizing t with
  | nil => simp [tyRevFold]
  | cons b bs ih => simp [tyRevFold, ih]

/-- The reversed loop computing the full function type equals the
right-to-left fold of arrows over the bindings. -/
theorem tyRevFold_reverse (t : Ty) (binds : List (Located Binding)) :
    tyRevFold t binds.reverse =
      binds.foldr (fun b acc => Ty.arrow b.content.ty acc) t := by
  induction binds with
  | nil => simp [tyRevFold]
  | cons b bs ih =>
    rw [List.reverse_cons, tyRevFold_append]
    simp [tyRevFold, ih]

/-- Folding the abstraction accumulator over an appended list splits into
two folds. -/
theorem absRevFold_append (loc : Location) (t : Located Term)
    (l1 l2 : List (Located Binding)) :
    absRevFold loc t (l1 ++ l2) = absRevFold loc (absRevFold loc t l1) l2 := by
  induction l1 generalizing t with
  | nil => simp [absRevFold]
  | cons b bs ih => simp [absRevFold, ih]

/-- The reversed loop wrapping the body in abstractions equals the
right-to-left fold of `Abs` over the bindings: the rightmost binding is the
innermost abstraction. -/
theorem absRevFold_reverse (loc : Location) (t : Located Term)
    (binds : List (Located Binding)) :
    absRevFold loc t binds.reverse =
      binds.foldr (fun b acc => Located.mk (Term.abs b.content acc) loc) t := by
  induction binds with
  | nil => simp [absRevFold]
  | cons b bs ih =>
    rw [List.reverse_cons, absRevFold_append]
    simp [absRevFold, ih]

/-- C4: on the non-failing cases, lowering a function definition computes
the full function type as the right-to-left arrow fold of the binding
types over the annotation, turns the body into nested abstractions with
the rightmost binding innermost, wraps a named definition in a `Let` whose
placeholder unit body sits at `(end, end)` of the definition, and returns
the abstraction directly for an anonymous definition. -/
theorem lower_fn_def_success_shape (loc : Location) (binds : List (Located Binding))
    (body : Located Block) (bodyT : Located Term)
    (hbody : lower_blk body = .ok bodyT) :
    (∀ (nm : Located Name) (lty : Located Ty),
      RecursionChecker.run nm.content body.content = true →
        lower_fn_def loc (some nm) binds body (some lty) =
          .ok ⟨.letE
              (.Rec ⟨binds.foldr (fun b acc => Ty.arrow b.content.ty acc) lty.content,
                lty.loc⟩)
              nm
              (binds.foldr (fun b acc => Located.mk (Term.abs b.content acc) loc) bodyT)
              ⟨.lit .unit, ⟨loc.endPos, loc.endPos⟩⟩, loc⟩) ∧
    (∀ (nm : Located Name) (lty : Located Ty),
      RecursionChecker.run nm.content body.content = false →
        lower_fn_def loc (some nm) binds body (some lty) =
          .ok ⟨.letE
              (.NonRec (some ⟨binds.foldr (fun b acc => Ty.arrow b.content.ty acc)
                  lty.content, lty.loc⟩))
              nm
              (binds.foldr (fun b acc => Located.mk (Term.abs b.content acc) loc) bodyT)
              ⟨.lit .unit, ⟨loc.endPos, loc.endPos⟩⟩, loc⟩) ∧
    (∀ nm : Located Name,
      RecursionChecker.run nm.content body.content = false →
        lower_fn_def loc (some nm) binds body none =
          .ok ⟨.letE (.NonRec none) nm
              (binds.foldr (fun b acc => Located.mk (Term.abs b.content acc) loc) bodyT)
              ⟨.lit .unit, ⟨loc.endPos, loc.endPos⟩⟩, loc⟩) ∧
    (lower_fn_def loc none binds body none =
      .ok (binds.foldr (fun b acc => Located.mk (Term.abs b.content acc) loc) bodyT)) := by
  refine ⟨fun nm lty hrec => ?_, fun nm lty hrec => ?_, fun nm hrec => ?_, ?_⟩ <;>
    simp [lower_fn_def, hbody, tyRevFold_reverse, absRevFold_reverse, *]

/-- C4 witness: an anonymous single-parameter function over a literal body
lowers directly to one abstraction. -/
theorem lower_fn_def_success_shape_witness :
    lower_fn_def testLoc none [⟨⟨"x", .int⟩, testLoc⟩] ⟨[intNode 1], testLoc⟩ none =
      .ok ⟨.abs ⟨"x", .int⟩ ⟨.lit (.int 1), testLoc⟩, testLoc⟩ := by
  have h := (lower_fn_def_success_shape testLoc [⟨⟨"x", .int⟩, testLoc⟩]
      ⟨[intNode 1], testLoc⟩ ⟨.lit (.int 1), testLoc⟩
      (by simp [lower_blk, lower_blk_rev, lower_node, lower_fold, intNode])).2.2.2
  simpa using h

/-- C2: lowering a function definition fails with `RecWithoutTy` at the
name's location exactly on named recursive definitions without a return
annotation, fails with `AnonWithTy` at the annotation's location exactly on
anonymous definitions with an annotation, and in every other case any
lowering error comes from the body, not from the definition itself. -/
theorem lower_fn_def_error_conditions (loc : Location) (optName : Option (Located Name))
    (binds : List (Located Binding)) (body : Located Block)
    (optTy : Option (Located Ty)) :
    (∀ nm : Located Name, optName = some nm →
      RecursionChecker.run nm.content body.content = true → optTy = none →
      lower_fn_def loc optName binds body optTy = .error (.RecWithoutTy nm.loc)) ∧
    (∀ lty : Located Ty, optName = none → optTy = some lty →
      lower_fn_def loc optName binds body optTy = .error (.AnonWithTy lty.loc)) ∧
    (∀ nm : Located Name, optName = some nm →
      (RecursionChecker.run nm.content body.content = false ∨ optTy ≠ none) →
      ∀ e, lower_fn_def loc optName binds body optTy = .error e →
        lower_blk body = .error e) ∧
    (optName = none → optTy = none →
      ∀ e, lower_fn_def loc optName binds body optTy = .error e →
        lower_blk body = .error e) := by
  refine ⟨?_, ?_, ?_, ?_⟩
  · intro nm h1 h2 h3
    subst h1; subst h3
    simp [lower_fn_def, h2]
  · intro lty h1 h2
    subst h1; subst h2
    simp [lower_fn_def]
  · intro nm h1 hcase e herr
    subst h1
    rcases hcase with hrec | hty
    · simp only [lower_fn_def, hrec] at herr
      cases hb : lower_blk body with
      | error e2 =>
        rw [hb] at herr
        simp at herr
        rw [herr]
      | ok t2 =>
        rw [hb] at herr
        simp at herr
    · cases optTy with
      | none => exact absurd rfl hty
      | some lty =>
        cases hrec : RecursionChecker.run nm.content body.content with
        | false =>
          simp only [lower_fn_def, hrec] at herr
          cases hb : lower_blk body with
          | error e2 =>
            rw [hb] at herr
            simp at herr
            rw [herr]
          | ok t2 =>
            rw [hb] at herr
            simp at herr
        | true =>
          simp only [lower_fn_def, hrec] at herr
          cases hb : lower_blk body with
          | error e2 =>
            rw [hb] at herr
            simp at herr
            rw [herr]
          | ok t2 =>
            rw [hb] at herr
            simp at herr
  · intro h1 h2 e herr
    subst h1; subst h2
    simp only [lower_fn_def] at herr
    cases hb : lower_blk body with
    | error e2 =>
      rw [hb] at herr
      simp at herr
      rw [herr]
    | ok t2 =>
      rw [hb] at herr
      simp at herr

/-- C2 witness: a named function whose body mentions its own name and that
carries no return annotation fails with `RecWithoutTy` at the name's
location. -/
theorem lower_fn_def_error_conditions_witness :
    lower_fn_def testLoc (some ⟨"f", testLoc⟩) []
      ⟨[⟨.name "f", testLoc⟩], testLoc⟩ none = .error (.RecWithoutTy testLoc) := by
  have h := (lower_fn_def_error_conditions testLoc (some ⟨"f", testLoc⟩) []
      ⟨[⟨.name "f", testLoc⟩], testLoc⟩ none).1 ⟨"f", testLoc⟩ rfl
      (by simp [RecursionChecker.run, freeInBlock, freeInNode, shadowsName]) rfl
  simpa using h
